import Mathlib

/-!
# termimgview — verification of the rendering pipeline

Shallow embedding of the program's core (`src/processing.rs`,
`src/rendering.rs`, `src/main.rs`): the RGBA color model and pixel
transforms, the shade mapper, the half-block cell renderer and the
coalescing line emitter.

Modelling conventions:
* Rust `u8` channels are `Nat` values; where an operation is only meaningful
  for byte-sized inputs the theorems carry `≤ 255` hypotheses.
* The program's `f32` arithmetic is embedded as exact arithmetic.  The two
  quantities the code truncates to integers — the shade-ramp index
  `(gray as f32 / 255.0 * len as f32) as usize` and the premultiplied channel
  `(c as f32 * (a as f32 / 255.0)) as u8` — agree with the exact floors
  `gray * len / 255` and `c * a / 255` for every byte-sized input (the
  operands are exactly representable and the rounding error of the correctly
  rounded division and multiplication never crosses an integer boundary on
  this domain), so those floors are the definitions used here.  Likewise
  `grayscale_value` is the exact half-up rounding of the weighted sum (the
  bridging lemma below relates the integer form to the rational formula of
  the source); the `f32` accumulation can land a hair below an exact `.5`
  tie and differ by one gray level on a few hundred of the 2^24 channel
  combinations, a deviation none of the verified properties depends on.
* Strict comparisons `color_distance(a,b) < tol` are embedded without the
  square root: `√d < tol ↔ 0 < tol ∧ d·den(tol)² < num(tol)²`, proved as
  `color_distance_lt_iff_sqrt` below.  Both forms agree with the `f32` code
  because the squared distance is an exactly represented integer and square
  root and comparison are correctly rounded.
* Rust panics (the `Half` arm of `shade`, `unwrap` of a missing custom ramp)
  are modelled by `Option`: `none` is a panic.
-/

namespace TermImgView

/-- A 4-channel RGBA pixel (`image::Rgba<u8>`); channels as `Nat`. -/
structure Rgba where
  r : Nat
  g : Nat
  b : Nat
  a : Nat
deriving DecidableEq, Repr

/-- A pixel has byte-sized channels, as Rust's `u8` guarantees. -/
def Rgba.valid (p : Rgba) : Prop :=
  p.r ≤ 255 ∧ p.g ≤ 255 ∧ p.b ≤ 255 ∧ p.a ≤ 255

instance (p : Rgba) : Decidable p.valid := by
  unfold Rgba.valid; infer_instance

/-- A 3-channel RGB color (`image::Rgb<u8>`). -/
structure Rgb where
  r : Nat
  g : Nat
  b : Nat
deriving DecidableEq, Repr

/-- Enum `ShadeMethod` from `main.rs`: the custom variant carries an optional ramp
(a Rust `String`, embedded as its character list). -/
inductive ShadeMethod where
  | ascii
  | blocks
  | half
  | custom (ramp : Option (List Char))
deriving DecidableEq, Repr

/-- Number of bytes of the UTF-8 encoding of a character
(Rust `char::len_utf8`). -/
def charUtf8Size (c : Char) : Nat :=
  if c.toNat ≤ 0x7F then 1
  else if c.toNat ≤ 0x7FF then 2
  else if c.toNat ≤ 0xFFFF then 3
  else 4

/-- Byte length of a string given as a character list: Rust `str::len` counts
UTF-8 bytes, not characters. -/
def utf8Len (s : List Char) : Nat :=
  (s.map charUtf8Size).sum

/-- Ramp of `ShadeMethod::Ascii` (10 characters, 10 bytes). -/
def ASCII_RAMP : List Char := " .-:=+*#%@".toList

/-- Ramp of `ShadeMethod::Blocks` (5 characters, 13 UTF-8 bytes). -/
def BLOCKS_RAMP : List Char := " ░▒▓█".toList

/-- Ramp listed for `ShadeMethod::Half` in the table (never used per pixel). -/
def HALF_RAMP : List Char := " ▄▀█".toList

/-- The `SHADE_METHOD` table from `processing.rs`. -/
def SHADE_METHOD : List (ShadeMethod × List Char) :=
  [(ShadeMethod.ascii, ASCII_RAMP),
   (ShadeMethod.blocks, BLOCKS_RAMP),
   (ShadeMethod.half, HALF_RAMP),
   (ShadeMethod.custom none, "your characters here".toList)]

/-- Function `grayscale_value` from `processing.rs`:
`(r*0.2126 + g*0.7152 + b*0.0722).round() as u8`.  The integer form is the
exact value of that expression (see `grayscale_value_eq_round`). -/
def grayscale_value (p : Rgba) : Nat :=
  (p.r * 2126 + p.g * 7152 + p.b * 722 + 5000) / 10000

/-- Rust `f32::round` on the nonnegative values arising here:
round half away from zero. -/
def roundHalfUp (q : ℚ) : ℤ :=
  ⌊q + 1 / 2⌋

/-- The luminance expression of `grayscale_value` as written in the source,
with exact rational coefficients. -/
def luminance_rat (p : Rgba) : ℚ :=
  (p.r : ℚ) * (2126 / 10000) + (p.g : ℚ) * (7152 / 10000)
    + (p.b : ℚ) * (722 / 10000)

/-- The ramp index computed inside `shade`:
`(gray as f32 / 255.0 * (shade_map.len() as f32)) as usize`.
`shade_map.len()` is the byte length of the ramp string. -/
def shade_index (gray : Nat) (shade_map : List Char) : Nat :=
  gray * utf8Len shade_map / 255

/-- The `shade_ascii` closure inside `shade`:
`shade_map.chars().nth(idx).unwrap_or(shade_map.chars().last().unwrap())`.
`none` models the panic on an empty ramp. -/
def shade_ascii (p : Rgba) (shade_map : List Char) : Option Char :=
  match shade_map.get? (shade_index (grayscale_value p) shade_map) with
  | some c => some c
  | none => shade_map.getLast?

/-- Function `shade` from `processing.rs`; `none` models the two panics
(the `Half` arm, and `unwrap` of `Custom(None)`). -/
def shade (p : Rgba) (shade_method : ShadeMethod) : Option Char :=
  match shade_method with
  | ShadeMethod.ascii => shade_ascii p ASCII_RAMP
  | ShadeMethod.blocks => shade_ascii p BLOCKS_RAMP
  | ShadeMethod.custom shade_map => shade_map.bind (shade_ascii p)
  | ShadeMethod.half => none

/-- Function `invert` from `processing.rs`: `255 - channel` on R, G, B; alpha kept. -/
def invert (p : Rgba) : Rgba :=
  ⟨255 - p.r, 255 - p.g, 255 - p.b, p.a⟩

/-- Function `rgba_to_rgb` from `processing.rs`: premultiply each channel by
`alpha / 255` and truncate (`(c as f32 * (a as f32 / 255.0)) as u8`). -/
def rgba_to_rgb (p : Rgba) : Rgb :=
  ⟨p.r * p.a / 255, p.g * p.a / 255, p.b * p.a / 255⟩

/-- Squared Euclidean RGB distance; the source's `color_distance` is its
square root. -/
def color_distance_sq (x y : Rgb) : ℤ :=
  ((x.r : ℤ) - y.r) ^ 2 + ((x.g : ℤ) - y.g) ^ 2 + ((x.b : ℤ) - y.b) ^ 2

/-- The comparison `color_distance(x, y) < tol` from the source, expressed
without the square root by clearing the denominator of `tol`. -/
def color_distance_lt (x y : Rgb) (tol : ℚ) : Bool :=
  decide (0 < tol.num ∧
    color_distance_sq x y * ((tol.den : ℤ) * tol.den) < tol.num * tol.num)

/-- Constant `TRANSPARENT` from `processing.rs`. -/
def TRANSPARENT : Rgba := ⟨0, 0, 0, 0⟩

/-- Function `is_transparent` from `processing.rs`: alpha equals `TRANSPARENT`'s. -/
def is_transparent (p : Rgba) : Bool :=
  p.a == TRANSPARENT.a

/-- Function `remove_bg_color` from `processing.rs`: every pixel whose premultiplied
color is closer than `rm_tolerance` to the key becomes `TRANSPARENT`; the
image is a row-major pixel list. -/
def remove_bg_color (img : List Rgba) (rm_bg_color : Rgb) (rm_tolerance : ℚ) :
    List Rgba :=
  img.map fun p =>
    if color_distance_lt (rgba_to_rgb p) rm_bg_color rm_tolerance
    then TRANSPARENT else p

/-- One output cell: glyph, mandatory foreground, optional background —
the arguments the display drivers hand to `LineRenderer::add`. -/
structure Cell where
  chr : Char
  color : Rgb
  bg_color : Option Rgb
deriving DecidableEq, Repr

/-- An image as the renderers consume it: dimensions plus the pixel accessor
`img.get_pixel(x, y)`. -/
structure Image where
  width : Nat
  height : Nat
  pix : Nat → Nat → Rgba

/-- The per-cell decision of `display_stream_half` in `rendering.rs`: the
five-branch conditional choosing glyph, foreground and background from the
pair of stacked pixels. -/
def half_cell (upper lower : Rgba) : Cell :=
  let upper_is_transparent := is_transparent upper
  let lower_is_transparent := is_transparent lower
  let u := rgba_to_rgb upper
  let l := rgba_to_rgb lower
  if upper_is_transparent && lower_is_transparent then ⟨' ', u, none⟩
  else if color_distance_lt u l 10 then ⟨'█', u, none⟩
  else if lower_is_transparent then ⟨'▀', u, none⟩
  else if upper_is_transparent then ⟨'▄', l, none⟩
  else ⟨'▀', u, some l⟩

/-- The cell built for one pixel by `display_stream_simple`: glyph
`shade(pixel)`, foreground `rgba_to_rgb(pixel)`, no background.  `none`
models a panic inside `shade`. -/
def simple_cell (p : Rgba) (shading : ShadeMethod) : Option Cell :=
  (shade p shading).map fun chr => ⟨chr, rgba_to_rgb p, none⟩

/-- The grid of cells produced by `display_stream_simple`: one row per pixel
row, one cell per pixel, in loop order. -/
def display_simple_cells (img : Image) (shading : ShadeMethod) :
    List (List (Option Cell)) :=
  (List.range img.height).map fun y =>
    (List.range img.width).map fun x => simple_cell (img.pix x y) shading

/-- The grid of cells produced by `display_stream_half`: one row per pair of
pixel rows (`y * 2`, `y * 2 + 1`), for `y` below `height / 2`. -/
def display_half_cells (img : Image) : List (List Cell) :=
  (List.range (img.height / 2)).map fun y =>
    (List.range img.width).map fun x =>
      half_cell (img.pix x (y * 2)) (img.pix x (y * 2 + 1))

/-- One element of the emitter's character buffer: a glyph, or one of the
three `crossterm` escape sequences the emitter appends
(`SetForegroundColor`, `SetBackgroundColor`, `ResetColor`). -/
inductive Token where
  | chr (c : Char)
  | setFg (c : Rgb)
  | setBg (c : Rgb)
  | reset
deriving DecidableEq, Repr

/-- Is the token an escape sequence rather than a glyph? -/
def Token.isEsc : Token → Bool
  | Token.chr _ => false
  | _ => true

/-- Struct `LineRenderer` from `rendering.rs`: the character buffer plus the
last-emitted foreground and background colors. -/
structure LineRenderer where
  buffer : List Token
  current_color : Option Rgb
  current_bg_color : Option Rgb
deriving DecidableEq, Repr

/-- Constructor `LineRenderer::new()`. -/
def LineRenderer.new : LineRenderer := ⟨[], none, none⟩

/-- Method `LineRenderer::add`: emit a reset when the style pair changes on a
non-empty buffer, then a set-foreground / set-background escape for each
component that differs from the last emitted one, then the glyph. -/
def LineRenderer.add (st : LineRenderer) (chr : Char)
    (color bg_color : Option Rgb) : LineRenderer :=
  let st1 :=
    if (st.current_color ≠ color ∨ st.current_bg_color ≠ bg_color) ∧ st.buffer ≠ []
    then { st with buffer := st.buffer ++ [Token.reset] } else st
  let st2 :=
    match color with
    | some c =>
      if st1.current_color ≠ color then
        { st1 with buffer := st1.buffer ++ [Token.setFg c], current_color := color }
      else st1
    | none => st1
  let st3 :=
    match bg_color with
    | some c =>
      if st2.current_bg_color ≠ bg_color then
        { st2 with buffer := st2.buffer ++ [Token.setBg c],
                   current_bg_color := bg_color }
      else st2
    | none => st2
  { st3 with buffer := st3.buffer ++ [Token.chr chr] }

/-- Method `LineRenderer::build`: append the trailing reset and return the
accumulated row. -/
def LineRenderer.build (st : LineRenderer) : List Token :=
  st.buffer ++ [Token.reset]

/-- One row fed cell-by-cell through `LineRenderer::add` and finished with
`build`, exactly as both display drivers do per output row. -/
def render_row (cells : List (Char × Option Rgb × Option Rgb)) : List Token :=
  (cells.foldl (fun st c => st.add c.1 c.2.1 c.2.2) LineRenderer.new).build

/-- Number of escape sequences in an emitted row. -/
def esc_count (l : List Token) : Nat :=
  (l.filter Token.isEsc).length

/-- The style of a cell as the emitter compares it: the
(foreground, background) pair. -/
def style (c : Char × Option Rgb × Option Rgb) : Option Rgb × Option Rgb :=
  (c.2.1, c.2.2)

/-- Number of style changes along a row, starting from a given style. -/
def spans_from (cur : Option Rgb × Option Rgb) :
    List (Option Rgb × Option Rgb) → Nat
  | [] => 0
  | s :: rest => (if s = cur then 0 else 1) + spans_from s rest

/-- Number of maximal runs of consecutive equal styles in a row. -/
def span_count (l : List (Option Rgb × Option Rgb)) : Nat :=
  match l with
  | [] => 0
  | s :: rest => 1 + spans_from s rest

/-- The half-block decision table exactly as the specification words it:
five cases evaluated in priority order on the alpha-premultiplied colors.
The distance test `distance(upper, lower) < 10.0` is written as the
equivalent comparison of the squared distance against `10 ^ 2`. -/
def half_cell_spec (upper lower : Rgba) : Cell :=
  let u := rgba_to_rgb upper
  let l := rgba_to_rgb lower
  if upper.a = 0 ∧ lower.a = 0 then ⟨' ', u, none⟩
  else if color_distance_sq u l < 10 ^ 2 then ⟨'█', u, none⟩
  else if lower.a = 0 then ⟨'▀', u, none⟩
  else if upper.a = 0 then ⟨'▄', l, none⟩
  else ⟨'▀', u, some l⟩


/-! ## Helper lemmas -/

/-- The integer `grayscale_value` is exactly the rounded weighted sum the
source computes. -/
theorem grayscale_value_eq_round (p : Rgba) :
    (grayscale_value p : ℤ) = roundHalfUp (luminance_rat p) := by
  have h : luminance_rat p + 1 / 2 =
      ((p.r * 2126 + p.g * 7152 + p.b * 722 + 5000 : ℕ) : ℤ) / ((10000 : ℕ) : ℚ) := by
    unfold luminance_rat
    push_cast
    ring
  unfold roundHalfUp grayscale_value
  rw [h, Rat.floor_intCast_div_natCast]
  omega


theorem color_distance_sq_nonneg (x y : Rgb) : 0 ≤ color_distance_sq x y := by
  unfold color_distance_sq
  positivity


/-- The integer comparison of `color_distance_lt` says exactly that the
squared distance is below the squared tolerance. -/
theorem color_distance_lt_iff_sq (x y : Rgb) (tol : ℚ) :
    color_distance_lt x y tol = true ↔
      0 < tol ∧ ((color_distance_sq x y : ℤ) : ℚ) < tol ^ 2 := by
  unfold color_distance_lt
  rw [decide_eq_true_iff]
  have hnum : ((tol.num : ℤ) : ℚ) = tol * ((tol.den : ℤ) : ℚ) := by
    have h := Rat.num_div_den tol
    have h0 : ((tol.den : ℕ) : ℚ) ≠ 0 := Nat.cast_ne_zero.mpr tol.den_nz
    have h2 := div_mul_cancel₀ ((tol.num : ℤ) : ℚ) h0
    rw [h] at h2
    push_cast
    linarith [h2]
  have hden : (0 : ℚ) < ((tol.den : ℤ) : ℚ) * ((tol.den : ℤ) : ℚ) := by
    have h1 : (0 : ℚ) < ((tol.den : ℤ) : ℚ) := by
      have := tol.den_pos
      push_cast
      positivity
    positivity
  constructor
  · rintro ⟨htol, hlt⟩
    have htolq : (0 : ℚ) < tol := by rwa [← Rat.num_pos]
    refine ⟨htolq, ?_⟩
    have h2 : ((color_distance_sq x y : ℤ) : ℚ) *
        (((tol.den : ℤ) : ℚ) * ((tol.den : ℤ) : ℚ)) <
        ((tol.num : ℤ) : ℚ) * ((tol.num : ℤ) : ℚ) := by exact_mod_cast hlt
    rw [hnum] at h2
    have h3 := (mul_lt_mul_right hden).mp (by
      calc ((color_distance_sq x y : ℤ) : ℚ) *
            (((tol.den : ℤ) : ℚ) * ((tol.den : ℤ) : ℚ))
          < tol * ((tol.den : ℤ) : ℚ) * (tol * ((tol.den : ℤ) : ℚ)) := h2
        _ = tol ^ 2 * (((tol.den : ℤ) : ℚ) * ((tol.den : ℤ) : ℚ)) := by ring)
    exact h3
  · rintro ⟨htolq, hlt⟩
    refine ⟨by rwa [Rat.num_pos], ?_⟩
    have h2 : ((color_distance_sq x y : ℤ) : ℚ) *
        (((tol.den : ℤ) : ℚ) * ((tol.den : ℤ) : ℚ)) <
        tol ^ 2 * (((tol.den : ℤ) : ℚ) * ((tol.den : ℤ) : ℚ)) :=
      (mul_lt_mul_right hden).mpr hlt
    have h3 : ((color_distance_sq x y : ℤ) : ℚ) *
        (((tol.den : ℤ) : ℚ) * ((tol.den : ℤ) : ℚ)) <
        ((tol.num : ℤ) : ℚ) * ((tol.num : ℤ) : ℚ) := by
      calc ((color_distance_sq x y : ℤ) : ℚ) *
            (((tol.den : ℤ) : ℚ) * ((tol.den : ℤ) : ℚ))
          < tol ^ 2 * (((tol.den : ℤ) : ℚ) * ((tol.den : ℤ) : ℚ)) := h2
        _ = tol * ((tol.den : ℤ) : ℚ) * (tol * ((tol.den : ℤ) : ℚ)) := by ring
        _ = ((tol.num : ℤ) : ℚ) * ((tol.num : ℤ) : ℚ) := by rw [hnum]
    exact_mod_cast h3

/-- Comparison `color_distance_lt` is exactly the source's strict comparison of the
Euclidean distance against the tolerance. -/
theorem color_distance_lt_iff_sqrt (x y : Rgb) (tol : ℚ) :
    color_distance_lt x y tol = true ↔
      Real.sqrt ((color_distance_sq x y : ℤ) : ℝ) < (tol : ℝ) := by
  rw [color_distance_lt_iff_sq]
  constructor
  · rintro ⟨htol, hlt⟩
    have htolr : (0 : ℝ) < (tol : ℝ) := by exact_mod_cast htol
    rw [Real.sqrt_lt' htolr]
    calc ((color_distance_sq x y : ℤ) : ℝ) = (((color_distance_sq x y : ℤ) : ℚ) : ℝ) := by
          push_cast; ring
      _ < ((tol ^ 2 : ℚ) : ℝ) := by exact_mod_cast hlt
      _ = (tol : ℝ) ^ 2 := by push_cast; ring
  · intro hlt
    have htolr : (0 : ℝ) < (tol : ℝ) := lt_of_le_of_lt (Real.sqrt_nonneg _) hlt
    have htolq : (0 : ℚ) < tol := by exact_mod_cast htolr
    refine ⟨htolq, ?_⟩
    rw [Real.sqrt_lt' htolr] at hlt
    have h2 : (((color_distance_sq x y : ℤ) : ℚ) : ℝ) < ((tol ^ 2 : ℚ) : ℝ) := by
      calc (((color_distance_sq x y : ℤ) : ℚ) : ℝ)
          = ((color_distance_sq x y : ℤ) : ℝ) := by push_cast; ring
        _ < (tol : ℝ) ^ 2 := hlt
        _ = ((tol ^ 2 : ℚ) : ℝ) := by push_cast; ring
    exact_mod_cast h2


/-- Every character occupies at least one UTF-8 byte. -/
theorem one_le_charUtf8Size (c : Char) : 1 ≤ charUtf8Size c := by
  unfold charUtf8Size
  split
  · omega
  · split
    · omega
    · split <;> omega

/-- A string has at least as many UTF-8 bytes as characters. -/
theorem length_le_utf8Len (s : List Char) : s.length ≤ utf8Len s := by
  induction s with
  | nil => simp [utf8Len]
  | cons c t ih =>
    have := one_le_charUtf8Size c
    simp only [utf8Len, List.map_cons, List.sum_cons, List.length_cons]
    simp only [utf8Len] at ih
    omega

/-- On a non-empty ramp, `shade_ascii` returns the character at the computed
index, defaulting to the last character when the index is out of range. -/
theorem shade_ascii_eq_getD (p : Rgba) (r : List Char) (hne : r ≠ []) :
    shade_ascii p r =
      some (r.getD (shade_index (grayscale_value p) r) (r.getLast hne)) := by
  unfold shade_ascii
  rw [List.getD_eq_getElem?_getD, List.get?_eq_getElem?]
  cases hg : r[shade_index (grayscale_value p) r]? with
  | some c => rfl
  | none => rw [List.getLast?_eq_getLast r hne]; rfl

/-- Dispatch of `shade` to `shade_ascii` for the three non-panicking
methods. -/
theorem shade_eq_shade_ascii (p : Rgba) (m : ShadeMethod) (ramp : List Char)
    (hm : (m = ShadeMethod.ascii ∧ ramp = ASCII_RAMP) ∨
          (m = ShadeMethod.blocks ∧ ramp = BLOCKS_RAMP) ∨
          m = ShadeMethod.custom (some ramp)) :
    shade p m = shade_ascii p ramp := by
  rcases hm with ⟨hm, hr⟩ | ⟨hm, hr⟩ | hm <;> subst hm
  · subst hr; rfl
  · subst hr; rfl
  · rfl

/-- The code's half-block decision coincides with the specification's
five-case table. -/
theorem half_cell_eq_spec (upper lower : Rgba) :
    half_cell upper lower = half_cell_spec upper lower := by
  have hlt := color_distance_lt_iff_sq (rgba_to_rgb upper) (rgba_to_rgb lower) 10
  unfold half_cell half_cell_spec is_transparent TRANSPARENT
  cases hb : color_distance_lt (rgba_to_rgb upper) (rgba_to_rgb lower) 10 with
  | false =>
    have h3 : ¬ color_distance_sq (rgba_to_rgb upper) (rgba_to_rgb lower) < 100 := by
      intro hc
      have hq : ((color_distance_sq (rgba_to_rgb upper) (rgba_to_rgb lower) : ℤ) : ℚ)
          < 10 ^ 2 := by
        norm_num
        exact_mod_cast hc
      have ht : color_distance_lt (rgba_to_rgb upper) (rgba_to_rgb lower) 10 = true :=
        hlt.mpr ⟨by norm_num, hq⟩
      rw [hb] at ht
      exact Bool.false_ne_true ht
    by_cases h1 : upper.a = 0 <;> by_cases h2 : lower.a = 0 <;>
      simp [h1, h2, h3, hb]
  | true =>
    have h3 : color_distance_sq (rgba_to_rgb upper) (rgba_to_rgb lower) < 100 := by
      have hq := (hlt.mp hb).2
      norm_num at hq
      exact_mod_cast hq
    by_cases h1 : upper.a = 0 <;> by_cases h2 : lower.a = 0 <;>
      simp [h1, h2, h3, hb]

/-! ## Claims -/

/-- C9: invoking the pixel-level `shade` with the `Half` strategy never
returns a character — the call lands in the panic branch, modelled as
`none`. -/
theorem shade_half_panics (p : Rgba) : shade p ShadeMethod.half = none := rfl

/-- C8: `invert` replaces each of R, G, B by `255 -` the channel, leaves
alpha unchanged, and applying it twice restores every byte-sized pixel. -/
theorem invert_involutive (p : Rgba) (h : p.valid) :
    invert (invert p) = p ∧
    invert p = ⟨255 - p.r, 255 - p.g, 255 - p.b, p.a⟩ := by
  obtain ⟨pr, pg, pb, pa⟩ := p
  simp only [Rgba.valid] at h
  refine ⟨?_, rfl⟩
  simp only [invert, Rgba.mk.injEq, and_true]
  omega

/-- Witness for C8 at the pixel (12, 200, 255, 7). -/
theorem invert_involutive_witness :
    invert (invert ⟨12, 200, 255, 7⟩) = ⟨12, 200, 255, 7⟩ :=
  (invert_involutive ⟨12, 200, 255, 7⟩ (by decide)).1

/-- C6: for a fixed ramp, the ramp index `shade` computes is monotone in the
luminance — both the raw index and the position actually read after
clamping to the ramp's character count. -/
theorem shade_index_monotone (ramp : List Char) (g1 g2 : Nat) (h : g1 ≤ g2) :
    shade_index g1 ramp ≤ shade_index g2 ramp ∧
    min (shade_index g1 ramp) (ramp.length - 1) ≤
      min (shade_index g2 ramp) (ramp.length - 1) := by
  have hm : shade_index g1 ramp ≤ shade_index g2 ramp := by
    unfold shade_index
    exact Nat.div_le_div_right (Nat.mul_le_mul_right _ h)
  exact ⟨hm, min_le_min hm le_rfl⟩

/-- Witness for C6 on the Ascii ramp at luminances 100 ≤ 200. -/
theorem shade_index_monotone_witness :
    shade_index 100 ASCII_RAMP ≤ shade_index 200 ASCII_RAMP :=
  (shade_index_monotone ASCII_RAMP 100 200 (by decide)).1

/-- C10: for Ascii, Blocks, or a Custom method carrying a non-empty ramp,
`shade` terminates without reaching a panic and returns a character that
occurs in the selected ramp. -/
theorem shade_total_in_ramp (p : Rgba) (m : ShadeMethod) (ramp : List Char)
    (hne : ramp ≠ [])
    (hm : (m = ShadeMethod.ascii ∧ ramp = ASCII_RAMP) ∨
          (m = ShadeMethod.blocks ∧ ramp = BLOCKS_RAMP) ∨
          m = ShadeMethod.custom (some ramp)) :
    ∃ c, shade p m = some c ∧ c ∈ ramp := by
  rw [shade_eq_shade_ascii p m ramp hm, shade_ascii_eq_getD p ramp hne]
  rw [List.getD_eq_getElem?_getD]
  cases hg : ramp[shade_index (grayscale_value p) ramp]? with
  | some c => exact ⟨c, rfl, List.getElem?_mem hg⟩
  | none => exact ⟨ramp.getLast hne, rfl, List.getLast_mem hne⟩

/-- Witness for C10 at a concrete pixel on the Ascii ramp. -/
theorem shade_total_in_ramp_witness :
    ∃ c, shade ⟨1, 2, 3, 4⟩ ShadeMethod.ascii = some c ∧ c ∈ ASCII_RAMP :=
  shade_total_in_ramp ⟨1, 2, 3, 4⟩ ShadeMethod.ascii ASCII_RAMP (by decide)
    (Or.inl ⟨rfl, rfl⟩)

/-- C5 counterexample: an identical fully-transparent upper/lower pair (its
premultiplied distance is 0) renders as a space, not as the full block the
claim promises for every identical pair. -/
theorem half_identical_cex :
    half_cell ⟨5, 5, 5, 0⟩ ⟨5, 5, 5, 0⟩ = ⟨' ', ⟨0, 0, 0⟩, none⟩ ∧
    (half_cell ⟨5, 5, 5, 0⟩ ⟨5, 5, 5, 0⟩).chr ≠ '█' := by decide

/-- C5 (amended): an identical upper/lower pair always yields a cell with a
single color and no background; the glyph is the full block '█' whenever the
pair is not fully transparent, and a space when it is. -/
theorem half_identical_amended (u l : Rgba) (h : u = l) :
    (half_cell u l).bg_color = none ∧
    (u.a ≠ 0 → half_cell u l = ⟨'█', rgba_to_rgb u, none⟩) ∧
    (u.a = 0 → half_cell u l = ⟨' ', rgba_to_rgb u, none⟩) := by
  subst h
  have hd : color_distance_sq (rgba_to_rgb u) (rgba_to_rgb u) = 0 := by
    unfold color_distance_sq
    ring
  have hlt : color_distance_lt (rgba_to_rgb u) (rgba_to_rgb u) 10 = true := by
    rw [color_distance_lt_iff_sq]
    refine ⟨by norm_num, ?_⟩
    rw [hd]
    norm_num
  unfold half_cell is_transparent TRANSPARENT
  by_cases ha : u.a = 0 <;> simp [ha, hlt]

/-- Witness for C5 (amended) at an identical opaque pair. -/
theorem half_identical_amended_witness :
    half_cell ⟨7, 7, 7, 255⟩ ⟨7, 7, 7, 255⟩ = ⟨'█', rgba_to_rgb ⟨7, 7, 7, 255⟩, none⟩ :=
  (half_identical_amended ⟨7, 7, 7, 255⟩ ⟨7, 7, 7, 255⟩ rfl).2.1 (by decide)

/-- C3 counterexample: with the Blocks ramp (5 characters, 13 UTF-8 bytes)
and luminance 120, the character-count index of the claim selects the third
ramp character '▒', but `shade` computes the index from the byte length,
overshoots the ramp, and returns the last character '█'. -/
theorem shade_char_length_cex :
    shade ⟨120, 120, 120, 255⟩ ShadeMethod.blocks = some '█' ∧
    BLOCKS_RAMP.getD
      (grayscale_value ⟨120, 120, 120, 255⟩ * BLOCKS_RAMP.length / 255) ' ' = '▒' ∧
    ('█' : Char) ≠ '▒' := by decide

/-- C3 (amended): `shade` computes `index = gray * byteLen / 255` from the
ramp's UTF-8 byte length (not its character count) and returns the
character at that position, clamped to the last ramp character whenever the
index reaches the character count; luminance 0 still yields the first and
luminance 255 the last ramp character, never an out-of-bounds access. -/
theorem shade_byte_length_amended (p : Rgba) (m : ShadeMethod)
    (ramp : List Char) (hne : ramp ≠ [])
    (hm : (m = ShadeMethod.ascii ∧ ramp = ASCII_RAMP) ∨
          (m = ShadeMethod.blocks ∧ ramp = BLOCKS_RAMP) ∨
          m = ShadeMethod.custom (some ramp)) :
    shade p m =
      some (ramp.getD (shade_index (grayscale_value p) ramp) (ramp.getLast hne)) ∧
    (grayscale_value p = 0 → shade p m = some (ramp.head hne)) ∧
    (grayscale_value p = 255 → shade p m = some (ramp.getLast hne)) := by
  have hbase := shade_ascii_eq_getD p ramp hne
  rw [shade_eq_shade_ascii p m ramp hm]
  refine ⟨hbase, ?_, ?_⟩
  · intro h0
    rw [hbase, h0]
    have hidx : shade_index 0 ramp = 0 := by
      unfold shade_index
      simp
    rw [hidx]
    cases ramp with
    | nil => exact absurd rfl hne
    | cons a t => simp
  · intro h255
    rw [hbase, h255]
    have hidx : shade_index 255 ramp = utf8Len ramp := by
      unfold shade_index
      omega
    rw [hidx, List.getD_eq_getElem?_getD,
      List.getElem?_eq_none (length_le_utf8Len ramp)]
    rfl

/-- Witness for C3 (amended) at luminance 120 on the Blocks ramp. -/
theorem shade_byte_length_amended_witness :
    shade ⟨120, 120, 120, 255⟩ ShadeMethod.blocks =
      some (BLOCKS_RAMP.getD
        (shade_index (grayscale_value ⟨120, 120, 120, 255⟩) BLOCKS_RAMP)
        (BLOCKS_RAMP.getLast (by decide))) :=
  (shade_byte_length_amended ⟨120, 120, 120, 255⟩ ShadeMethod.blocks BLOCKS_RAMP
    (by decide) (Or.inr (Or.inl ⟨rfl, rfl⟩))).1

/-- C4 counterexample: a fully transparent white pixel under the Simple
strategy yields the lightest Ascii character '@' — `shade` reads the raw
channels, only the foreground color is premultiplied — not the darkest ramp
character ' ' the claim requires. -/
theorem transparent_simple_cex :
    simple_cell ⟨255, 255, 255, 0⟩ ShadeMethod.ascii =
      some ⟨'@', ⟨0, 0, 0⟩, none⟩ ∧
    ASCII_RAMP.getD 0 '@' = ' ' ∧
    ('@' : Char) ≠ ' ' := by decide

/-- C4 (amended): a fully transparent pixel rendered with the Simple
strategy (Ascii or Blocks) always gets foreground (0,0,0) and no
background; its glyph is the character `shade` selects from the raw
(unpremultiplied) channels — the darkest ramp character exactly when the
raw luminance is 0. -/
theorem transparent_simple_amended (p : Rgba) (h : p.a = 0) (m : ShadeMethod)
    (hm : m = ShadeMethod.ascii ∨ m = ShadeMethod.blocks) :
    (∃ c, shade p m = some c ∧ simple_cell p m = some ⟨c, ⟨0, 0, 0⟩, none⟩) ∧
    (grayscale_value p = 0 → simple_cell p m = some ⟨' ', ⟨0, 0, 0⟩, none⟩) := by
  have hfg : rgba_to_rgb p = ⟨0, 0, 0⟩ := by
    unfold rgba_to_rgb
    rw [h]
    simp
  have main : ∀ ramp : List Char, ∀ hne : ramp ≠ [], ramp.head hne = ' ' →
      shade p m = shade_ascii p ramp →
      (∃ c, shade p m = some c ∧ simple_cell p m = some ⟨c, ⟨0, 0, 0⟩, none⟩) ∧
      (grayscale_value p = 0 → simple_cell p m = some ⟨' ', ⟨0, 0, 0⟩, none⟩) := by
    intro ramp hne hhead hdisp
    have hd := shade_ascii_eq_getD p ramp hne
    constructor
    · refine ⟨ramp.getD (shade_index (grayscale_value p) ramp) (ramp.getLast hne),
        by rw [hdisp, hd], ?_⟩
      unfold simple_cell
      rw [hdisp, hd, hfg]
      rfl
    · intro h0
      have hidx : shade_index (grayscale_value p) ramp = 0 := by
        rw [h0]
        unfold shade_index
        simp
      unfold simple_cell
      rw [hdisp, hd, hidx, hfg]
      cases ramp with
      | nil => exact absurd rfl hne
      | cons a t =>
        simp only [List.head_cons] at hhead
        simp [hhead]
  rcases hm with hm | hm <;> subst hm
  · exact main ASCII_RAMP (by decide) (by decide) rfl
  · exact main BLOCKS_RAMP (by decide) (by decide) rfl

/-- Witness for C4 (amended) at the transparent black pixel. -/
theorem transparent_simple_amended_witness :
    simple_cell ⟨0, 0, 0, 0⟩ ShadeMethod.ascii = some ⟨' ', ⟨0, 0, 0⟩, none⟩ :=
  (transparent_simple_amended ⟨0, 0, 0, 0⟩ rfl ShadeMethod.ascii (Or.inl rfl)).2
    (by decide)

/-- C7: `remove_bg_color` keeps the image length, turns exactly the pixels
whose premultiplied color lies at Euclidean RGB distance strictly less than
the tolerance from the key into the fully transparent pixel (0,0,0,0), and
leaves every other pixel unchanged — the decision at each position depends
only on the pixel at that position, so the update is order-irrelevant. -/
theorem remove_bg_characterization (img : List Rgba) (key : Rgb) (tol : ℚ)
    (i : Nat) (hi : i < img.length) :
    (remove_bg_color img key tol).length = img.length ∧
    (Real.sqrt ((color_distance_sq (rgba_to_rgb (img.getD i TRANSPARENT)) key : ℤ) : ℝ)
        < (tol : ℝ) →
      (remove_bg_color img key tol).getD i TRANSPARENT = TRANSPARENT) ∧
    (¬ Real.sqrt ((color_distance_sq (rgba_to_rgb (img.getD i TRANSPARENT)) key : ℤ) : ℝ)
        < (tol : ℝ) →
      (remove_bg_color img key tol).getD i TRANSPARENT = img.getD i TRANSPARENT) := by
  have hsome : img[i]? = some (img.getD i TRANSPARENT) := by
    rw [List.getElem?_eq_getElem hi, List.getD_eq_getElem?_getD,
      List.getElem?_eq_getElem hi]
    rfl
  have hmap : (remove_bg_color img key tol).getD i TRANSPARENT =
      if color_distance_lt (rgba_to_rgb (img.getD i TRANSPARENT)) key tol
      then TRANSPARENT else img.getD i TRANSPARENT := by
    unfold remove_bg_color
    rw [List.getD_eq_getElem?_getD, List.getElem?_map, hsome]
    rfl
  refine ⟨by simp [remove_bg_color], ?_, ?_⟩
  · intro hc
    rw [hmap, if_pos]
    exact (color_distance_lt_iff_sqrt _ _ _).mpr hc
  · intro hc
    rw [hmap, if_neg]
    intro hb
    exact hc ((color_distance_lt_iff_sqrt _ _ _).mp hb)

/-- Witness for C7: the concrete scenario of the specification — key
(0,0,0), tolerance 80, pixel (10,10,10,255) at distance √300 ≈ 17.3. -/
theorem remove_bg_characterization_witness :
    (remove_bg_color [⟨10, 10, 10, 255⟩] ⟨0, 0, 0⟩ 80).getD 0 TRANSPARENT =
      TRANSPARENT := by
  have hd : color_distance_sq
      (rgba_to_rgb (([⟨10, 10, 10, 255⟩] : List Rgba).getD 0 TRANSPARENT))
      ⟨0, 0, 0⟩ = 300 := by decide
  refine (remove_bg_characterization [⟨10, 10, 10, 255⟩] ⟨0, 0, 0⟩ 80 0
    (by decide)).2.1 ?_
  rw [hd]
  have h80 : ((80 : ℚ) : ℝ) = (80 : ℝ) := by norm_num
  have h300 : (((300 : ℤ) : ℝ)) = (300 : ℝ) := by norm_num
  rw [h80, h300]
  exact (Real.sqrt_lt' (by norm_num)).mpr (by norm_num)

/-- C1: under the Half strategy, output rows exist exactly for
`y < height / 2` (a trailing unpaired pixel row is dropped), each row has
one cell per pixel column, and the cell at column `x` of row `y` pairs the
pixel at row `2y` (upper) with the pixel at row `2y + 1` (lower) and is
chosen by the specification's five-case decision table, evaluated in
priority order on the alpha-premultiplied colors. -/
theorem half_render_matches_spec (img : Image) (y x : Nat)
    (hy : y < img.height / 2) (hx : x < img.width) :
    (display_half_cells img).length = img.height / 2 ∧
    ((display_half_cells img).getD y []).length = img.width ∧
    ((display_half_cells img).getD y []).getD x ⟨' ', ⟨0, 0, 0⟩, none⟩ =
      half_cell_spec (img.pix x (2 * y)) (img.pix x (2 * y + 1)) := by
  have hrow : (display_half_cells img).getD y [] =
      (List.range img.width).map fun x =>
        half_cell (img.pix x (y * 2)) (img.pix x (y * 2 + 1)) := by
    unfold display_half_cells
    rw [List.getD_eq_getElem?_getD, List.getElem?_map, List.getElem?_range hy]
    rfl
  refine ⟨by simp [display_half_cells], ?_, ?_⟩
  · rw [hrow]
    simp
  · rw [hrow, List.getD_eq_getElem?_getD, List.getElem?_map,
      List.getElem?_range hx, Option.map_some', Option.getD_some,
      half_cell_eq_spec, Nat.mul_comm y 2]

/-- Witness for C1: a 1×2 image whose two stacked opaque pixels are far
apart in color renders as the two-color upper-half-block cell. -/
theorem half_render_matches_spec_witness :
    ((display_half_cells ⟨1, 2, fun _ yy =>
        if yy = 0 then ⟨9, 9, 9, 255⟩ else ⟨200, 0, 0, 255⟩⟩).getD 0 []).getD 0
      ⟨' ', ⟨0, 0, 0⟩, none⟩ = ⟨'▀', ⟨9, 9, 9⟩, some ⟨200, 0, 0⟩⟩ := by
  have h := (half_render_matches_spec ⟨1, 2, fun _ yy =>
      if yy = 0 then ⟨9, 9, 9, 255⟩ else ⟨200, 0, 0, 255⟩⟩ 0 0
      (by decide) (by decide)).2.2
  rw [h]
  decide

/-- Escape count distributes over append. -/
theorem esc_count_append (a b : List Token) :
    esc_count (a ++ b) = esc_count a + esc_count b := by
  unfold esc_count
  rw [List.filter_append, List.length_append]

/-- Escape count of a single token. -/
theorem esc_count_cons (t : Token) (l : List Token) :
    esc_count (t :: l) = (if t.isEsc then 1 else 0) + esc_count l := by
  cases t <;> simp [esc_count, Token.isEsc, List.filter] <;> omega

/-- Glyph tokens contribute no escapes. -/
theorem esc_count_map_chr (cs : List Char) :
    esc_count (cs.map Token.chr) = 0 := by
  induction cs with
  | nil => rfl
  | cons c t ih =>
    rw [List.map_cons, esc_count_cons, ih]
    rfl

/-- Adding a cell whose style equals the tracked style appends only the
glyph. -/
theorem add_same_style (buf : List Token) (cc cbg : Option Rgb) (c : Char) :
    LineRenderer.add ⟨buf, cc, cbg⟩ c cc cbg = ⟨buf ++ [Token.chr c], cc, cbg⟩ := by
  unfold LineRenderer.add
  cases cc <;> cases cbg <;> simp

/-- Adding a background-free cell with a new foreground onto a state with no
tracked background appends at most a reset plus one set-foreground escape. -/
theorem add_nobg_new_style (buf : List Token) (cc : Option Rgb) (c : Char)
    (f : Rgb) (hne : cc ≠ some f) :
    LineRenderer.add ⟨buf, cc, none⟩ c (some f) none =
      ⟨buf ++ (if buf = [] then [] else [Token.reset]) ++
        [Token.setFg f, Token.chr c], some f, none⟩ := by
  unfold LineRenderer.add
  by_cases hb : buf = [] <;> simp [hb, hne]

/-- Folding background-free cells keeps the tracked background unset and
adds at most two escapes per style change. -/
theorem foldl_nobg_esc (cells : List (Char × Rgb)) (buf : List Token)
    (cc : Option Rgb) :
    esc_count (((cells.map fun c => (c.1, some c.2, (none : Option Rgb))).foldl
        (fun (st : LineRenderer) (c : Char × Option Rgb × Option Rgb) =>
          st.add c.1 c.2.1 c.2.2) ⟨buf, cc, none⟩).buffer) ≤
      esc_count buf +
        2 * spans_from (cc, none) (cells.map fun c => (some c.2, none)) := by
  induction cells generalizing buf cc with
  | nil => simp
  | cons hd tl ih =>
    obtain ⟨c, f⟩ := hd
    simp only [List.map_cons, List.foldl_cons]
    by_cases hcc : cc = some f
    · subst hcc
      rw [add_same_style buf (some f) none c]
      refine le_trans (ih (buf ++ [Token.chr c]) (some f)) ?_
      rw [esc_count_append]
      have h0 : esc_count [Token.chr c] = 0 := rfl
      rw [h0]
      have hsp : spans_from ((some f : Option Rgb), (none : Option Rgb))
          ((some f, none) :: tl.map fun c => (some c.2, none)) =
          spans_from (some f, none) (tl.map fun c => (some c.2, none)) := by
        simp [spans_from]
      rw [hsp]
      omega
    · rw [add_nobg_new_style buf cc c f hcc]
      refine le_trans (ih _ (some f)) ?_
      rw [esc_count_append, esc_count_append]
      have h1 : esc_count [Token.setFg f, Token.chr c] = 1 := rfl
      have h2 : esc_count (if buf = [] then [] else [Token.reset]) ≤ 1 := by
        by_cases hb : buf = [] <;> simp [hb, esc_count, List.filter, Token.isEsc]
      have hne2 : ¬ (((some f : Option Rgb), (none : Option Rgb)) = (cc, none)) := by
        intro hcontra
        injection hcontra with h4 h5
        exact hcc h4.symm
      have h3 : spans_from (cc, none) ((some f, none) ::
          tl.map fun c => (some c.2, none)) =
          1 + spans_from (some f, none) (tl.map fun c => (some c.2, none)) := by
        simp [spans_from, hne2]
      rw [h1, h3]
      omega

/-- Starting from any tracked style, `spans_from` is bounded by the span
count. -/
theorem spans_from_le_span_count (cur : Option Rgb × Option Rgb)
    (l : List (Option Rgb × Option Rgb)) :
    spans_from cur l ≤ span_count l := by
  cases l with
  | nil => simp [spans_from, span_count]
  | cons s rest =>
    show (if s = cur then 0 else 1) + spans_from s rest ≤ 1 + spans_from s rest
    split <;> omega

/-- A row of background-free cells emits at most two escapes per style span
plus the trailing reset. -/
theorem render_row_nobg_bound (cells : List (Char × Rgb)) :
    esc_count (render_row (cells.map fun c => (c.1, some c.2, none))) ≤
      2 * span_count (cells.map fun c => ((some c.2 : Option Rgb), none)) + 1 := by
  unfold render_row LineRenderer.build LineRenderer.new
  rw [esc_count_append]
  have h := foldl_nobg_esc cells [] none
  have hs := spans_from_le_span_count (none, none)
    (cells.map fun c => (some c.2, none))
  have hr : esc_count [Token.reset] = 1 := rfl
  have h0 : esc_count ([] : List Token) = 0 := rfl
  rw [hr]
  omega

/-- Adding the first cell of a row records its style and emits exactly its
style escapes before the glyph. -/
theorem new_add_uniform (c : Char) (fg : Rgb) (bg : Option Rgb) :
    LineRenderer.new.add c (some fg) bg =
      ⟨Token.setFg fg :: (bg.toList.map Token.setBg) ++ [Token.chr c],
        some fg, bg⟩ := by
  cases bg <;> simp [LineRenderer.new, LineRenderer.add, Option.toList]

/-- Once the tracked style matches, a run of equal-style cells appends only
its glyphs. -/
theorem foldl_same_style (cs : List Char) (buf : List Token) (fg : Rgb)
    (bg : Option Rgb) :
    (cs.map fun c => (c, some fg, bg)).foldl
        (fun (st : LineRenderer) (c : Char × Option Rgb × Option Rgb) =>
          st.add c.1 c.2.1 c.2.2) ⟨buf, some fg, bg⟩ =
      ⟨buf ++ cs.map Token.chr, some fg, bg⟩ := by
  induction cs generalizing buf with
  | nil => simp
  | cons c t ih =>
    simp only [List.map_cons, List.foldl_cons]
    rw [add_same_style buf (some fg) bg c, ih (buf ++ [Token.chr c])]
    simp

/-- A uniform row is emitted as one style prefix, then the glyphs, then the
trailing reset. -/
theorem render_row_uniform (cs : List Char) (hne : cs ≠ []) (fg : Rgb)
    (bg : Option Rgb) :
    render_row (cs.map fun c => (c, some fg, bg)) =
      Token.setFg fg ::
        (bg.toList.map Token.setBg ++ (cs.map Token.chr ++ [Token.reset])) := by
  cases cs with
  | nil => exact absurd rfl hne
  | cons c0 t =>
    unfold render_row LineRenderer.build
    simp only [List.map_cons, List.foldl_cons]
    rw [new_add_uniform c0 fg bg, foldl_same_style t _ fg bg]
    simp

set_option maxRecDepth 8000 in
/-- C2 counterexample: two rows with the same two style spans but different
cell counts emit 8 and 53 escape sequences; after a cell with a background,
every later background-free cell re-emits a reset (the tracked background
is never cleared), so the escape count grows with the number of cells. -/
theorem emitter_coalescing_cex :
    span_count ((('x', some ⟨1, 2, 3⟩, some ⟨4, 5, 6⟩) ::
        List.replicate 5 ('y', some ⟨1, 2, 3⟩, (none : Option Rgb))).map style) = 2 ∧
    span_count ((('x', some ⟨1, 2, 3⟩, some ⟨4, 5, 6⟩) ::
        List.replicate 50 ('y', some ⟨1, 2, 3⟩, (none : Option Rgb))).map style) = 2 ∧
    esc_count (render_row (('x', some ⟨1, 2, 3⟩, some ⟨4, 5, 6⟩) ::
        List.replicate 5 ('y', some ⟨1, 2, 3⟩, (none : Option Rgb)))) = 8 ∧
    esc_count (render_row (('x', some ⟨1, 2, 3⟩, some ⟨4, 5, 6⟩) ::
        List.replicate 50 ('y', some ⟨1, 2, 3⟩, (none : Option Rgb)))) = 53 := by
  decide

/-- C2 (amended): a uniform row of N cells sharing one (foreground,
background) pair emits exactly one set-foreground escape, a set-background
escape when a background is present, then the N glyphs and one trailing
reset — one style prefix regardless of N; and for rows of background-free
cells (the Simple strategy rows) the escape count is bounded by two per
distinct consecutive style span plus the final reset.  (For rows mixing
background and background-free cells the span proportionality fails, see
the counterexample.) -/
theorem emitter_coalescing_amended (cs : List Char) (hne : cs ≠ []) (fg : Rgb)
    (bg : Option Rgb) (cells : List (Char × Rgb)) :
    render_row (cs.map fun c => (c, some fg, bg)) =
      Token.setFg fg ::
        (bg.toList.map Token.setBg ++ (cs.map Token.chr ++ [Token.reset])) ∧
    esc_count (render_row (cs.map fun c => (c, some fg, bg))) =
      (if bg.isSome then 2 else 1) + 1 ∧
    esc_count (render_row (cells.map fun c => (c.1, some c.2, none))) ≤
      2 * span_count (cells.map fun c => ((some c.2 : Option Rgb), none)) + 1 := by
  refine ⟨render_row_uniform cs hne fg bg, ?_, render_row_nobg_bound cells⟩
  rw [render_row_uniform cs hne fg bg]
  rw [esc_count_cons, esc_count_append, esc_count_append, esc_count_map_chr]
  cases bg <;> simp [esc_count, Token.isEsc, Option.toList, List.filter]

/-- Witness for C2 (amended): a two-cell uniform row with a background
emits one foreground/background pair, two glyphs and one reset. -/
theorem emitter_coalescing_amended_witness :
    render_row [('a', some ⟨1, 2, 3⟩, some ⟨4, 5, 6⟩),
        ('b', some ⟨1, 2, 3⟩, some ⟨4, 5, 6⟩)] =
      [Token.setFg ⟨1, 2, 3⟩, Token.setBg ⟨4, 5, 6⟩, Token.chr 'a',
        Token.chr 'b', Token.reset] := by
  have h := (emitter_coalescing_amended ['a', 'b'] (by decide) ⟨1, 2, 3⟩
    (some ⟨4, 5, 6⟩) []).1
  simpa using h

end TermImgView
